import Mathlib

/-!
Verification of the `env` configuration-loading package.

The Go sources `env.go` and `provider.go` are embedded shallowly below:
pure functions become Lean functions, the reflective walk over a destination
struct becomes a walk over an explicit description of the struct's fields,
and in-place mutation of the destination becomes explicit state passing over
a store keyed by field paths.  Helper routines of the package that live in a
file not present here (`structPtr`, `kindOf`, `implements`, `setValue`,
`setSlice`) and standard-library primitives (`strings.Split`, `os.Expand`,
`strconv.ParseBool`) are modelled from the specification's words, each marked
as such in its doc comment.
-/

namespace EnvSpec

/-- A runtime value stored in a field of the destination record.  Scalar
parsing grammars for floats and durations are declared external primitives by
the spec, so the model carries the representative scalar kinds (integer,
boolean, string) plus sequences. -/
inductive Value : Type where
  | vint (n : Int)
  | vbool (b : Bool)
  | vstr (s : String)
  | vslice (elems : List Value)

/-- Base scalar kinds of bindable fields. -/
inductive BaseKind : Type where
  | int
  | bool
  | str
  deriving DecidableEq, Repr

/-- The static type of a struct field, as the reflective walk observes it.
Each constructor carries `u`, the optional textual-unmarshal capability of
that type (`encoding.TextUnmarshaler`): `some f` means the type implements
the interface with behaviour `f`, `none` means it does not.  A struct's
fields are triples of (exported/settable, `env` tag value, field type). -/
inductive Ty : Type where
  | base (k : BaseKind) (u : Option (String → Except String Value))
  | slice (elem : Ty) (u : Option (String → Except String Value))
  | strct (fields : List (Bool × Option String × Ty)) (u : Option (String → Except String Value))
  | other (u : Option (String → Except String Value))

/-- A field descriptor: settable flag, optional `env` tag, type. -/
abbrev FieldT := Bool × Option String × Ty

/-- Modelled from the spec: the missing helper `implements(v.field,
unmarshalerIface)` — whether the field's type exposes the textual-unmarshal
capability. -/
def Ty.hasU : Ty → Bool
  | .base _ u => u.isSome
  | .slice _ u => u.isSome
  | .strct _ u => u.isSome
  | .other u => u.isSome

/-- Modelled from the spec: the missing helper `kindOf(v.field,
reflect.Slice)` — whether the field's type is a sequence (slice). -/
def Ty.isSlice : Ty → Bool
  | .slice _ _ => true
  | _ => false

/-- The closed set of error values the package produces (`ErrInvalidArgument`,
`ErrEmptyTagName`, `ErrUnsupportedType`, `ErrInvalidTagOption` wrapping the
offending option, `NotSetError` carrying the missing names, and conversion
failures propagated from the underlying textual parsers). -/
inductive Err : Type where
  | invalidArgument
  | emptyTagName
  | unsupportedType
  | invalidTagOption (opt : String)
  | notSet (names : List String)
  | convFailed (msg : String)
  deriving DecidableEq, Repr

/-- A Provider: `LookupEnv(key) -> (value, found)`, exactly the Go interface
shape — the value component exists even when `found` is false. -/
abbrev Provider := String → String × Bool

/-- `providers.LookupEnv` from provider.go: query every provider in order;
a later provider that reports found overrides the value; found is sticky. -/
def providersLookupEnv (ps : List Provider) (key : String) : String × Bool :=
  ps.foldl (fun acc p => if (p key).2 then ((p key).1, true) else acc) ("", false)

/-- `MultiProvider` from provider.go: combines providers, later wins. -/
def MultiProvider (ps : List Provider) : Provider :=
  fun key => providersLookupEnv ps key

theorem providersLookupEnv_append (ps : List Provider) (p : Provider) (key : String) :
    providersLookupEnv (ps ++ [p]) key =
      if (p key).2 then ((p key).1, true) else providersLookupEnv ps key := by
  simp [providersLookupEnv, List.foldl_append]

theorem providersLookupEnv_found (ps : List Provider) (key : String) :
    (providersLookupEnv ps key).2 = ps.any (fun p => (p key).2) := by
  induction ps using List.reverseRecOn with
  | nil => simp [providersLookupEnv]
  | append_singleton ps p ih =>
      rw [providersLookupEnv_append]
      by_cases h : (p key).2 <;> simp [h, ih]

theorem providersLookupEnv_lastFound (ps : List Provider) (key : String) :
    providersLookupEnv ps key =
      (((ps.filter (fun p => (p key).2)).getLast?).map (fun p => ((p key).1, true))).getD
        ("", false) := by
  induction ps using List.reverseRecOn with
  | nil => simp [providersLookupEnv]
  | append_singleton ps p ih =>
      rw [providersLookupEnv_append]
      by_cases h : (p key).2 <;>
        simp [h, List.filter_append, List.getLast?_append, ih]

/-- C2: the merge combinator's lookup reports found iff some source reports
found, returns the value of the last source reporting found, and appending a
further source overrides the result exactly when that source reports found
(later sources always consulted, never short-circuited). -/
theorem multiProvider_lookup_spec (ps : List Provider) (key : String) :
    (MultiProvider ps key).2 = ps.any (fun p => (p key).2)
    ∧ MultiProvider ps key =
        (((ps.filter (fun p => (p key).2)).getLast?).map (fun p => ((p key).1, true))).getD
          ("", false)
    ∧ ∀ p : Provider, MultiProvider (ps ++ [p]) key =
        if (p key).2 then ((p key).1, true) else MultiProvider ps key := by
  refine ⟨providersLookupEnv_found ps key, providersLookupEnv_lastFound ps key, ?_⟩
  intro p
  exact providersLookupEnv_append ps p key

/-- Modelled from the Go standard library: `os.Expand`'s `isShellSpecialVar`
(special shell parameter characters). -/
def isShellSpecialVar (c : Char) : Bool :=
  c = '*' || c = '#' || c = '$' || c = '@' || c = '!' || c = '?' || c = '-' ||
    (('0' : Char) ≤ c && c ≤ ('9' : Char))

/-- Modelled from the Go standard library: `os.Expand`'s `isAlphaNum`. -/
def isAlphaNum (c : Char) : Bool :=
  c = '_' || (('0' : Char) ≤ c && c ≤ ('9' : Char)) ||
    (('a' : Char) ≤ c && c ≤ ('z' : Char)) || (('A' : Char) ≤ c && c ≤ ('Z' : Char))

/-- Scan a maximal alphanumeric run: returns (run, remainder). -/
def scanAlnum : List Char → List Char × List Char
  | [] => ([], [])
  | c :: cs =>
      if isAlphaNum c then
        let (n, r) := scanAlnum cs
        (c :: n, r)
      else ([], c :: cs)

/-- Scan for the closing brace of a `${...}` placeholder: given the characters
after the opening brace, returns the name characters before the first brace
that closes and the remainder after it, or none when no closing brace exists. -/
def braceScan : List Char → Option (List Char × List Char)
  | [] => none
  | c :: cs =>
      if c = '}' then some ([], cs)
      else match braceScan cs with
           | none => none
           | some (n, r) => some (c :: n, r)

/-- Modelled from the Go standard library: the scanning loop of `os.Expand`,
over the character list of the input.  A dollar sign followed by a braced or
bare name is replaced by `mapping name`; bad syntax after a dollar is eaten or
the dollar kept, exactly as `os.Expand`/`getShellName` do.  The `fuel`
argument only bounds the recursion; every recursive call consumes at least
one character while spending exactly one unit of fuel, so starting the fuel
at the input's length (as `osExpand` does) the exhaustion case is never
reached. -/
def expandAux (mapping : String → String) : Nat → List Char → List Char
  | _, [] => []
  | 0, s => s
  | fuel + 1, c :: cs =>
      if c = '$' then
        match cs with
        | [] => ['$']
        | d :: ds =>
            if d = '{' then
              match braceScan ds with
              | none => expandAux mapping fuel ds
              | some (n, r) =>
                  if n = [] then expandAux mapping fuel r
                  else (mapping (String.mk n)).data ++ expandAux mapping fuel r
            else if isShellSpecialVar d then
              (mapping (String.mk [d])).data ++ expandAux mapping fuel ds
            else
              match scanAlnum (d :: ds) with
              | ([], _) => '$' :: expandAux mapping fuel (d :: ds)
              | (n, r) => (mapping (String.mk n)).data ++ expandAux mapping fuel r
      else c :: expandAux mapping fuel cs

/-- Modelled from the Go standard library: `os.Expand`. -/
def osExpand (value : String) (mapping : String → String) : String :=
  String.mk (expandAux mapping value.data.length value.data)

/-- If `sep` is a prefix of `s`, the remainder of `s` after it. -/
def matchSep : List Char → List Char → Option (List Char)
  | [], s => some s
  | _ :: _, [] => none
  | c :: cs, d :: ds => if c = d then matchSep cs ds else none

/-- Modelled from the Go standard library: `strings.Split` restricted to a
non-empty separator `c0 :: sep0` — split on every leftmost, non-overlapping
occurrence of the separator.  The `fuel` argument only bounds the recursion;
every recursive call consumes at least one character while spending exactly
one unit of fuel, so starting the fuel at the input's length (as `goSplit`
does) the exhaustion case is never reached. -/
def splitChars (c0 : Char) (sep0 : List Char) : Nat → List Char → List (List Char)
  | _, [] => [[]]
  | 0, s => [s]
  | fuel + 1, c :: cs =>
      match matchSep (c0 :: sep0) (c :: cs) with
      | some r => [] :: splitChars c0 sep0 fuel r
      | none =>
          match splitChars c0 sep0 fuel cs with
          | [] => [[c]]
          | x :: xs => (c :: x) :: xs

/-- Modelled from the Go standard library: `strings.Split`.  An empty
separator explodes the string into its characters, a non-empty one splits on
its occurrences. -/
def goSplit (s sep : String) : List String :=
  match sep.data with
  | [] => s.data.map (fun c => String.mk [c])
  | c0 :: sep0 => (splitChars c0 sep0 s.data.length s.data).map String.mk

/-- Value of a decimal digit, if the character is one. -/
def digitVal (c : Char) : Option Nat :=
  if ('0' : Char) ≤ c && c ≤ ('9' : Char) then some (c.toNat - '0'.toNat) else none

/-- Parse a non-empty all-digit run as a natural number. -/
def digitsToNat : List Char → Nat → Option Nat
  | [], acc => some acc
  | c :: cs, acc =>
      match digitVal c with
      | some d => digitsToNat cs (acc * 10 + d)
      | none => none

/-- Modelled from the Go standard library: the decimal-integer grammar of
`strconv.ParseInt` — an optional sign followed by a non-empty digit run. -/
def parseIntChars : List Char → Option Int
  | [] => none
  | c :: cs =>
      if c = '-' then
        match cs, digitsToNat cs 0 with
        | _ :: _, some n => some (-(n : Int))
        | _, _ => none
      else if c = '+' then
        match cs, digitsToNat cs 0 with
        | _ :: _, some n => some (n : Int)
        | _, _ => none
      else
        match digitsToNat (c :: cs) 0 with
        | some n => some (n : Int)
        | none => none

/-- Integer parsing on strings. -/
def parseInt (s : String) : Option Int :=
  parseIntChars s.data

/-- Modelled from the Go standard library: `strconv.ParseBool`. -/
def parseBool (s : String) : Except Err Bool :=
  if s = "1" || s = "t" || s = "T" || s = "TRUE" || s = "true" || s = "True" then
    .ok true
  else if s = "0" || s = "f" || s = "F" || s = "FALSE" || s = "false" || s = "False" then
    .ok false
  else .error (.convFailed ("invalid bool syntax " ++ s))

/-- A destination field handle: the path of field indices leading to it from
the root struct.  This is the shallow counterpart of the `reflect.Value` kept
in Go's `variable.field`. -/
abbrev Path := List Nat

/-- The mutable storage of the destination record: a leaf value per path. -/
abbrev Store := Path → Value

/-- Write one leaf of the destination record in place. -/
def update (st : Store) (p : Path) (val : Value) : Store :=
  fun q => if q = p then val else st q

/-- The `variable` struct of env.go: resolved name, flags, and the handle to
(and type of) the original struct field. -/
structure Variable : Type where
  name : String
  required : Bool
  expand : Bool
  path : Path
  ty : Ty

/-- The `loader` struct of env.go. -/
structure Loader : Type where
  provider : Provider
  pfx : String
  sliceSep : String

/-- An `Option` of env.go (named `LoadOpt` here because `Option` is taken):
a functional override of the loader's settings. -/
abbrev LoadOpt := Loader → Loader

/-- `WithPrefix` from env.go. -/
def WithPrefix (p : String) : LoadOpt :=
  fun l => { l with pfx := p }

/-- `WithSliceSeparator` from env.go. -/
def WithSliceSeparator (sep : String) : LoadOpt :=
  fun l => { l with sliceSep := sep }

/-- `newLoader` from env.go: defaults (no prefix, space separator) overridden
by the options in order. -/
def newLoader (p : Provider) (opts : List LoadOpt) : Loader :=
  opts.foldl (fun l opt => opt l) { provider := p, pfx := "", sliceSep := " " }

/-- Modelled from the spec: the scalar conversion rules of the missing
`setValue` helper.  A type exposing the textual-unmarshal capability is
converted by invoking that capability and propagating its failure; otherwise
integers, booleans and strings follow the standard textual rules; structs,
plain slices and other types have no scalar rule. -/
def convert (ty : Ty) (raw : String) : Except Err Value :=
  match ty.hasU, ty with
  | true, _ =>
      match ty with
      | .base _ (some f) | .slice _ (some f) | .strct _ (some f) | .other (some f) =>
          match f raw with
          | .ok v => .ok v
          | .error msg => .error (.convFailed msg)
      | _ => .error .unsupportedType
  | false, .base .int _ =>
      match parseInt raw with
      | some n => .ok (.vint n)
      | none => .error (.convFailed ("invalid int syntax " ++ raw))
  | false, .base .bool _ =>
      match parseBool raw with
      | .ok b => .ok (.vbool b)
      | .error e => .error e
  | false, .base .str _ => .ok (.vstr raw)
  | false, _ => .error .unsupportedType

/-- Modelled from the spec: the missing `setValue` helper — convert the raw
string by the scalar rules and overwrite the field at the given path. -/
def setValue (ty : Ty) (p : Path) (raw : String) (st : Store) : Except Err Store :=
  match convert ty raw with
  | .ok v => .ok (update st p v)
  | .error e => .error e

/-- Convert every piece by the scalar rules of the given element type,
failing on the first piece whose conversion fails. -/
def convertAll (elem : Ty) : List String → Except Err (List Value)
  | [] => .ok []
  | s :: rest =>
      match convert elem s with
      | .error e => .error e
      | .ok v =>
          match convertAll elem rest with
          | .error e => .error e
          | .ok vs => .ok (v :: vs)

/-- Modelled from the spec: the missing `setSlice` helper — convert each
piece independently by the scalar rules of the element type, failing on the
first piece that does not convert, then overwrite the field with the ordered
sequence. -/
def setSlice (ty : Ty) (p : Path) (pieces : List String) (st : Store) : Except Err Store :=
  match ty with
  | .slice elem _ =>
      match convertAll elem pieces with
      | .ok vs => .ok (update st p (.vslice vs))
      | .error e => .error e
  | _ => .error .unsupportedType

/-- The per-variable binding step of `loadVars` (env.go lines 156-160):
a slice-typed field whose type does not itself implement the unmarshaler
interface is split on the separator and set element-wise, anything else is
set as one value. -/
def bindVar (l : Loader) (v : Variable) (value : String) (st : Store) : Except Err Store :=
  if v.ty.isSlice && !v.ty.hasU then
    setSlice v.ty v.path (goSplit value l.sliceSep) st
  else
    setValue v.ty v.path value st

/-- The option-parsing loop of `parseVars` (env.go lines 208-218): each
comma-separated option must be the literal `required` or `expand`, anything
else fails with `ErrInvalidTagOption` carrying the offending literal. -/
def parseOptions : List String → Bool → Bool → Except Err (Bool × Bool)
  | [], req, exp => .ok (req, exp)
  | o :: rest, req, exp =>
      if o = "required" then parseOptions rest true exp
      else if o = "expand" then parseOptions rest req true
      else .error (.invalidTagOption o)

mutual

/-- The recursive case of `parseVars` (env.go line 187): parse the fields of
a nested struct type under the nested path.  Only ever invoked on a `strct`;
split out of `parseFields` so the recursion is structural on the nesting. -/
def parseNested (l : Loader) (p : Path) (ty : Ty) : Except Err (List Variable) :=
  match ty with
  | .strct inner _ => parseFields l p 0 inner
  | _ => .ok []

/-- `parseVars` from env.go, over the field list of a struct: fields are
visited in declaration order starting at index `i` under path `p`;
non-settable fields are skipped; a settable struct field whose type does not
implement the unmarshaler interface is recursed into and its variables
spliced in place; otherwise the `env` tag (if any) is split on commas into
the name and the options, an empty name fails with `ErrEmptyTagName`, and a
variable with the prefixed name is emitted. -/
def parseFields (l : Loader) (p : Path) (i : Nat) (fs : List FieldT) :
    Except Err (List Variable) :=
  match fs with
  | [] => .ok []
  | (canSet, tag, ty) :: rest =>
      if !canSet then parseFields l p (i + 1) rest
      else
        match ty with
        | .strct _ none =>
            match parseNested l (p ++ [i]) ty with
            | .error e => .error e
            | .ok nested =>
                match parseFields l p (i + 1) rest with
                | .error e => .error e
                | .ok rst => .ok (nested ++ rst)
        | _ =>
            match tag with
            | none => parseFields l p (i + 1) rest
            | some t =>
                let parts := goSplit t ","
                let name := parts.headD ""
                if name = "" then .error .emptyTagName
                else
                  match parseOptions parts.tail false false with
                  | .error e => .error e
                  | .ok (req, exp) =>
                      match parseFields l p (i + 1) rest with
                      | .error e => .error e
                      | .ok rst =>
                          .ok ({ name := l.pfx ++ name, required := req,
                                 expand := exp, path := p ++ [i], ty := ty } :: rst)

end

/-- `lookupEnv` from env.go: look the key up in the provider; when not found
report `("", false)`; when found and `expand` is set, run `os.Expand` over
the value with a mapping that looks names up in the same provider and keeps
only the value component of the answer. -/
def lookupEnv (l : Loader) (key : String) (expand : Bool) : String × Bool :=
  let (value, ok) := l.provider key
  if !ok then ("", false)
  else if !expand then (value, true)
  else (osExpand value (fun k => (l.provider k).1), true)

/-- The resolve-and-bind loop of `loadVars` (env.go lines 144-168), with the
missing-required accumulator threaded explicitly: a variable that is not
found is skipped (its name recorded when required); a found variable is
bound, any binding error aborting immediately; after the iteration a
non-empty accumulator becomes a `NotSetError`. -/
def bindLoop (l : Loader) (vars : List Variable) (st : Store) (notset : List String) :
    Store × Option Err :=
  match vars with
  | [] => (st, if notset.isEmpty then none else some (.notSet notset))
  | v :: rest =>
      let (value, ok) := lookupEnv l v.name v.expand
      if !ok then
        bindLoop l rest st (if v.required then notset ++ [v.name] else notset)
      else
        match bindVar l v value st with
        | .error e => (st, some e)
        | .ok st' => bindLoop l rest st' notset

/-- The destination argument of `Load`/`LoadFrom`, as `reflect.ValueOf`
classifies it: a nil pointer, a non-pointer, a pointer to a non-struct, or a
non-nil pointer to a struct carrying the struct's field descriptors and its
current storage. -/
inductive Arg : Type where
  | nilPtr
  | nonPtr
  | ptrToNonStruct
  | ptrToStruct (fields : List FieldT) (st : Store)

/-- Modelled from the spec: the missing `structPtr` helper — the destination
must be a non-nil pointer-like reference to a structured record. -/
def structPtr : Arg → Bool
  | .ptrToStruct _ _ => true
  | _ => false

/-- `loadVars` from env.go: validate the destination, discover the variables,
run the resolve-and-bind loop.  The returned `Arg` is the destination after
the call (its storage possibly mutated), paired with the returned error. -/
def loadVars (l : Loader) (dst : Arg) : Arg × Option Err :=
  match dst with
  | .ptrToStruct fields st =>
      match parseFields l [] 0 fields with
      | .error e => (.ptrToStruct fields st, some e)
      | .ok vars =>
          let (st', err) := bindLoop l vars st []
          (.ptrToStruct fields st', err)
  | a => (a, some .invalidArgument)

/-- `LoadFrom` from env.go. -/
def LoadFrom (p : Provider) (dst : Arg) (opts : List LoadOpt) : Arg × Option Err :=
  loadVars (newLoader p opts) dst

/-! ### Auxiliary definitions used to state and prove the claims -/

/-- Whether an `Except` computation succeeded. -/
def isOkE {α : Type} : Except Err α → Bool
  | .ok _ => true
  | .error _ => false

/-- The value a binding step would write, separated from the store: `bindVar`
is exactly `bindExpr` followed by an overwrite of the variable's path. -/
def bindExpr (l : Loader) (v : Variable) (value : String) : Except Err Value :=
  if v.ty.isSlice && !v.ty.hasU then
    match v.ty with
    | .slice elem _ =>
        match convertAll elem (goSplit value l.sliceSep) with
        | .ok vs => .ok (.vslice vs)
        | .error e => .error e
    | _ => .error .unsupportedType
  else convert v.ty value

/-- The names of the required-but-not-found variables, in discovery order. -/
def missingOf (l : Loader) (vars : List Variable) : List String :=
  (vars.filter (fun v => v.required && !(l.provider v.name).2)).map (fun v => v.name)

/-! ### Basic lemmas -/

theorem lookupEnv_snd (l : Loader) (key : String) (expand : Bool) :
    (lookupEnv l key expand).2 = (l.provider key).2 := by
  rcases h : l.provider key with ⟨v, ok⟩
  cases ok <;> cases expand <;> simp [lookupEnv, h]

theorem bindVar_eq (l : Loader) (v : Variable) (value : String) (st : Store) :
    bindVar l v value st =
      match bindExpr l v value with
      | .ok val => .ok (update st v.path val)
      | .error e => .error e := by
  unfold bindVar bindExpr setSlice setValue
  rcases hty : v.ty with ⟨k, u⟩ | ⟨elem, u⟩ | ⟨fs, u⟩ | u
  · simp only [hty, Ty.isSlice, Bool.false_and, Bool.false_eq_true, if_false]
  · rcases u with _ | f
    · simp only [hty, Ty.isSlice, Ty.hasU, Option.isSome_none, Bool.not_false,
        Bool.and_true, if_true]
      all_goals rcases hca : convertAll elem (goSplit value l.sliceSep) with e | vs
      all_goals simp [hca]
    · simp only [hty, Ty.isSlice, Ty.hasU, Option.isSome_some, Bool.not_true,
        Bool.and_false, Bool.false_eq_true, if_false]
  · simp only [hty, Ty.isSlice, Bool.false_and, Bool.false_eq_true, if_false]
  · simp only [hty, Ty.isSlice, Bool.false_and, Bool.false_eq_true, if_false]

theorem parseBool_ne_invalidArgument (s : String) : parseBool s ≠ .error .invalidArgument := by
  unfold parseBool
  split
  · simp
  · split <;> simp

theorem convert_ne_invalidArgument (ty : Ty) (raw : String) :
    convert ty raw ≠ .error .invalidArgument := by
  rcases ty with ⟨k, u⟩ | ⟨e2, u⟩ | ⟨fs, u⟩ | u
  · rcases u with _ | f
    · rcases k with _ | _ | _
      · simp only [convert, Ty.hasU, Option.isSome_none]
        all_goals rcases hp : parseInt raw with _ | n
        all_goals simp [hp]
      · simp only [convert, Ty.hasU, Option.isSome_none]
        all_goals rcases hb : parseBool raw with m | b
        all_goals simp [hb]
        all_goals have := parseBool_ne_invalidArgument raw
        all_goals rw [hb] at this
        all_goals simpa using this
      · simp [convert, Ty.hasU]
    · simp only [convert, Ty.hasU, Option.isSome_some]
      all_goals rcases hf : f raw with v | m
      all_goals simp [hf]
  · rcases u with _ | f
    · simp [convert, Ty.hasU]
    · simp only [convert, Ty.hasU, Option.isSome_some]
      all_goals rcases hf : f raw with v | m
      all_goals simp [hf]
  · rcases u with _ | f
    · simp [convert, Ty.hasU]
    · simp only [convert, Ty.hasU, Option.isSome_some]
      all_goals rcases hf : f raw with v | m
      all_goals simp [hf]
  · rcases u with _ | f
    · simp [convert, Ty.hasU]
    · simp only [convert, Ty.hasU, Option.isSome_some]
      all_goals rcases hf : f raw with v | m
      all_goals simp [hf]

theorem convertAll_ne_invalidArgument (elem : Ty) (pieces : List String) :
    convertAll elem pieces ≠ .error .invalidArgument := by
  induction pieces with
  | nil => simp [convertAll]
  | cons s rest ih =>
      simp only [convertAll]
      rcases hc : convert elem s with e | v
      · simpa [hc] using convert_ne_invalidArgument elem s
      · rcases hr : convertAll elem rest with e | vs
        · simpa [hr] using ih
        · simp

theorem bindExpr_ne_invalidArgument (l : Loader) (v : Variable) (value : String) :
    bindExpr l v value ≠ .error .invalidArgument := by
  unfold bindExpr
  split
  · rcases hty : v.ty with ⟨k, u⟩ | ⟨elem, u⟩ | ⟨fs, u⟩ | u
    · simp
    · rcases hca : convertAll elem (goSplit value l.sliceSep) with e | vs
      · simpa [hca] using convertAll_ne_invalidArgument elem (goSplit value l.sliceSep)
      · simp [hca]
    · simp
    · simp
  · exact convert_ne_invalidArgument v.ty value

theorem bindVar_ne_invalidArgument (l : Loader) (v : Variable) (value : String) (st : Store) :
    bindVar l v value st ≠ .error .invalidArgument := by
  rw [bindVar_eq]
  rcases hbe : bindExpr l v value with e | val
  · have := bindExpr_ne_invalidArgument l v value
    rw [hbe] at this
    simpa using this
  · simp

theorem bindLoop_ne_invalidArgument (l : Loader) (vars : List Variable) :
    ∀ (st : Store) (ns : List String),
      (bindLoop l vars st ns).2 ≠ some .invalidArgument := by
  induction vars with
  | nil =>
      intro st ns
      simp only [bindLoop]
      split <;> simp
  | cons v rest ih =>
      intro st ns
      simp only [bindLoop]
      split
      · exact ih st _
      · rcases hbv : bindVar l v (lookupEnv l v.name v.expand).1 st with e | st'
        · simp only [hbv]
          intro hcon
          simp only [Prod.snd, Option.some.injEq] at hcon
          exact bindVar_ne_invalidArgument l v _ st (hcon ▸ hbv)
        · simp only [hbv]
          exact ih st' ns

/-! ### Unfolding equations for the field walk -/

theorem parseFields_nil (l : Loader) (p : Path) (i : Nat) :
    parseFields l p i [] = .ok [] := by
  rw [parseFields.eq_def]

theorem parseFields_cons_private (l : Loader) (p : Path) (i : Nat) (tag : Option String)
    (ty : Ty) (rest : List FieldT) :
    parseFields l p i ((false, tag, ty) :: rest) = parseFields l p (i + 1) rest := by
  rw [parseFields.eq_def]
  rfl

theorem parseFields_cons_struct (l : Loader) (p : Path) (i : Nat) (tag : Option String)
    (inner : List FieldT) (rest : List FieldT) :
    parseFields l p i ((true, tag, .strct inner none) :: rest) =
      match parseFields l (p ++ [i]) 0 inner with
      | .error e => .error e
      | .ok nested =>
          match parseFields l p (i + 1) rest with
          | .error e => .error e
          | .ok rst => .ok (nested ++ rst) := by
  rw [parseFields.eq_def]
  rfl

theorem parseFields_cons_leaf (l : Loader) (p : Path) (i : Nat) (tag : Option String)
    (ty : Ty) (rest : List FieldT)
    (hlf : ∀ inner : List FieldT, ty ≠ .strct inner none) :
    parseFields l p i ((true, tag, ty) :: rest) =
      match tag with
      | none => parseFields l p (i + 1) rest
      | some t =>
          if (goSplit t ",").headD "" = "" then .error .emptyTagName
          else
            match parseOptions (goSplit t ",").tail false false with
            | .error e => .error e
            | .ok (req, exp) =>
                match parseFields l p (i + 1) rest with
                | .error e => .error e
                | .ok rst =>
                    .ok ({ name := l.pfx ++ (goSplit t ",").headD "", required := req,
                           expand := exp, path := p ++ [i], ty := ty } :: rst) := by
  rw [parseFields.eq_def]
  rcases ty with ⟨k, u⟩ | ⟨e2, u⟩ | ⟨fs2, u⟩ | u
  · rfl
  · rfl
  · rcases u with _ | f
    · exact absurd rfl (hlf fs2)
    · rfl
  · rfl

theorem parseFields_cons_noTag (l : Loader) (p : Path) (i : Nat) (ty : Ty)
    (rest : List FieldT) (hlf : ∀ inner : List FieldT, ty ≠ .strct inner none) :
    parseFields l p i ((true, none, ty) :: rest) = parseFields l p (i + 1) rest := by
  rw [parseFields_cons_leaf l p i none ty rest hlf]

theorem parseFields_cons_tag (l : Loader) (p : Path) (i : Nat) (t : String) (ty : Ty)
    (rest : List FieldT) (hlf : ∀ inner : List FieldT, ty ≠ .strct inner none) :
    parseFields l p i ((true, some t, ty) :: rest) =
      if (goSplit t ",").headD "" = "" then .error .emptyTagName
      else
        match parseOptions (goSplit t ",").tail false false with
        | .error e => .error e
        | .ok (req, exp) =>
            match parseFields l p (i + 1) rest with
            | .error e => .error e
            | .ok rst =>
                .ok ({ name := l.pfx ++ (goSplit t ",").headD "", required := req,
                       expand := exp, path := p ++ [i], ty := ty } :: rst) := by
  rw [parseFields_cons_leaf l p i (some t) ty rest hlf]

theorem parseOptions_ne_invalidArgument (opts : List String) :
    ∀ (r e : Bool), parseOptions opts r e ≠ .error .invalidArgument := by
  induction opts with
  | nil => intro r e; simp [parseOptions]
  | cons o rest ih =>
      intro r e
      simp only [parseOptions]
      split
      · exact ih true e
      · split
        · exact ih r true
        · simp

theorem parseFields_ne_invalidArgument (l : Loader) :
    ∀ (n : Nat) (fs : List FieldT), sizeOf fs ≤ n →
      ∀ (p : Path) (i : Nat), parseFields l p i fs ≠ .error .invalidArgument := by
  intro n
  induction n with
  | zero =>
      intro fs hle p i
      match fs with
      | [] => simp [parseFields_nil]
      | f :: rest => simp at hle
  | succ n ih =>
      intro fs hle p i
      match fs with
      | [] => simp [parseFields_nil]
      | (canSet, tag, ty) :: rest =>
          have hrest : sizeOf rest ≤ n := by simp at hle; omega
          cases canSet with
          | false =>
              rw [parseFields_cons_private]
              exact ih rest hrest p (i + 1)
          | true =>
              by_cases hstr : ∃ inner : List FieldT, ty = .strct inner none
              · obtain ⟨inner, rfl⟩ := hstr
                have hinner : sizeOf inner ≤ n := by simp at hle; omega
                rw [parseFields_cons_struct]
                rcases hn : parseFields l (p ++ [i]) 0 inner with e | nested
                · simp only []
                  intro hcon
                  simp only [Except.error.injEq] at hcon
                  exact ih inner hinner (p ++ [i]) 0 (by rw [hn, hcon])
                · rcases hr : parseFields l p (i + 1) rest with e | rst
                  · simp only []
                    intro hcon
                    simp only [Except.error.injEq] at hcon
                    exact ih rest hrest p (i + 1) (by rw [hr, hcon])
                  · simp
              · push_neg at hstr
                rw [parseFields_cons_leaf l p i tag ty rest (fun inn => hstr inn)]
                match tag with
                | none => exact ih rest hrest p (i + 1)
                | some t =>
                    simp only []
                    split
                    · simp
                    · rcases ho : parseOptions ((goSplit t ",").tail) false false with e | ro
                      · simp only []
                        intro hcon
                        simp only [Except.error.injEq] at hcon
                        exact parseOptions_ne_invalidArgument _ false false (by rw [ho, hcon])
                      · rcases hr : parseFields l p (i + 1) rest with e | rst
                        · simp only []
                          intro hcon
                          simp only [Except.error.injEq] at hcon
                          exact ih rest hrest p (i + 1) (by rw [hr, hcon])
                        · simp

theorem bindLoop_spec (l : Loader) (vars : List Variable) :
    ∀ (st : Store) (ns : List String),
      (∀ v ∈ vars, (l.provider v.name).2 = true →
        isOkE (bindExpr l v (lookupEnv l v.name v.expand).1) = true) →
      (bindLoop l vars st ns).2 =
        if ns ++ missingOf l vars = [] then none
        else some (.notSet (ns ++ missingOf l vars)) := by
  induction vars with
  | nil =>
      intro st ns hb
      simp only [bindLoop, missingOf, List.filter_nil, List.map_nil, List.append_nil]
      cases ns <;> simp
  | cons v rest ih =>
      intro st ns hb
      have hbv := hb v (List.mem_cons_self v rest)
      have hbr : ∀ w ∈ rest, (l.provider w.name).2 = true →
          isOkE (bindExpr l w (lookupEnv l w.name w.expand).1) = true :=
        fun w hw => hb w (List.mem_cons_of_mem v hw)
      have hsnd := lookupEnv_snd l v.name v.expand
      rcases hl : lookupEnv l v.name v.expand with ⟨value, ok⟩
      rw [hl] at hsnd
      simp only [bindLoop, hl]
      cases hok : (l.provider v.name).2
      · rw [hok] at hsnd
        subst hsnd
        simp only [Bool.not_false, if_true]
        by_cases hreq : v.required = true
        · rw [if_pos hreq, ih st (ns ++ [v.name]) hbr]
          simp [missingOf, hok, hreq]
        · have hreq2 : v.required = false := by
            revert hreq; cases v.required <;> simp
          rw [if_neg hreq, ih st ns hbr]
          simp [missingOf, hok, hreq2]
      · rw [hok] at hsnd
        subst hsnd
        simp only [Bool.not_true, Bool.false_eq_true, if_false]
        have hv1 : (lookupEnv l v.name v.expand).1 = value := by rw [hl]
        rw [hv1] at hbv
        rcases hbe : bindExpr l v value with e | val
        · rw [hbe] at hbv
          simp [isOkE, hok] at hbv
        · rw [bindVar_eq, hbe]
          simp only []
          rw [ih (update st v.path val) ns hbr]
          simp [missingOf, hok]

/-- C1: in `loadVars`, every discovered variable whose resolved name is not
found and whose required flag is set contributes its name to the accumulator
while iteration continues; provided no binding step fails, the call returns a
`NotSetError` carrying exactly the accumulated names in discovery order iff
the accumulator is non-empty. -/
theorem claim_C1_missing_required (l : Loader) (fs : List FieldT) (st : Store)
    (vars : List Variable)
    (hp : parseFields l [] 0 fs = .ok vars)
    (hb : ∀ v ∈ vars, (l.provider v.name).2 = true →
      isOkE (bindExpr l v (lookupEnv l v.name v.expand).1) = true) :
    (loadVars l (.ptrToStruct fs st)).2 =
      if missingOf l vars = [] then none else some (.notSet (missingOf l vars)) := by
  simp only [loadVars, hp]
  have h := bindLoop_spec l vars st [] hb
  rcases hbl : bindLoop l vars st [] with ⟨st2, err⟩
  rw [hbl] at h
  simpa using h

/-- Fixture: a provider that finds nothing. -/
def provNone : Provider := fun _ => ("", false)

/-- Fixture: an all-zero initial store. -/
def st0 : Store := fun _ => .vint 0

/-- Fixture: two required fields whose keys the provider lacks. -/
def fsC1 : List FieldT :=
  [(true, some "A,required", .base .int none), (true, some "B,required", .base .str none)]

/-- Fixture: the variables discovered in `fsC1`. -/
def varsC1 : List Variable :=
  [{ name := "A", required := true, expand := false, path := [0], ty := .base .int none },
   { name := "B", required := true, expand := false, path := [1], ty := .base .str none }]

theorem claim_C1_witness :
    (loadVars (newLoader provNone []) (.ptrToStruct fsC1 st0)).2 =
      some (.notSet ["A", "B"]) := by
  have h := claim_C1_missing_required (newLoader provNone []) fsC1 st0 varsC1 rfl
    (by intro v hv hfound; simp [newLoader, provNone] at hfound)
  have h2 : missingOf (newLoader provNone []) varsC1 = ["A", "B"] := rfl
  rw [h2] at h
  simpa using h

/-- C9: a destination that is not a non-nil pointer to a struct makes
`loadVars` fail with `ErrInvalidArgument` before anything else happens — the
destination is returned untouched and the result does not depend on the
loader (so the provider is never consulted); a destination that passes the
pre-flight check can never produce `ErrInvalidArgument`. -/
theorem claim_C9_invalid_argument (l : Loader) (dst : Arg) :
    (structPtr dst = false →
      loadVars l dst = (dst, some .invalidArgument)
      ∧ ∀ l2 : Loader, loadVars l2 dst = loadVars l dst)
    ∧ (structPtr dst = true → (loadVars l dst).2 ≠ some .invalidArgument) := by
  constructor
  · intro hsp
    match dst with
    | .nilPtr => exact ⟨rfl, fun l2 => rfl⟩
    | .nonPtr => exact ⟨rfl, fun l2 => rfl⟩
    | .ptrToNonStruct => exact ⟨rfl, fun l2 => rfl⟩
    | .ptrToStruct fs st => simp [structPtr] at hsp
  · intro hsp
    match dst with
    | .nilPtr => simp [structPtr] at hsp
    | .nonPtr => simp [structPtr] at hsp
    | .ptrToNonStruct => simp [structPtr] at hsp
    | .ptrToStruct fs st =>
        simp only [loadVars]
        rcases hp : parseFields l [] 0 fs with e | vars
        · have hne := parseFields_ne_invalidArgument l (sizeOf fs) fs (le_refl _) [] 0
          rw [hp] at hne
          simp only [ne_eq, Prod.snd, Option.some.injEq]
          intro hcon
          exact hne (by rw [hcon])
        · have hne := bindLoop_ne_invalidArgument l vars st []
          rcases hbl : bindLoop l vars st [] with ⟨st2, err⟩
          rw [hbl] at hne
          simpa [hbl] using hne

theorem claim_C9_witness :
    loadVars (newLoader provNone []) .nonPtr = (.nonPtr, some .invalidArgument)
    ∧ (loadVars (newLoader provNone []) (.ptrToStruct [] st0)).2 ≠
        some .invalidArgument :=
  ⟨((claim_C9_invalid_argument (newLoader provNone []) .nonPtr).1 rfl).1,
   (claim_C9_invalid_argument (newLoader provNone []) (.ptrToStruct [] st0)).2 rfl⟩

theorem braceScan_append_close (name : List Char) (hnb : ∀ c ∈ name, c ≠ ('}' : Char)) :
    braceScan (name ++ [('}' : Char)]) = some (name, []) := by
  induction name with
  | nil => simp [braceScan]
  | cons c cs ih =>
      have hc : c ≠ ('}' : Char) := hnb c (List.mem_cons_self c cs)
      have ihr := ih (fun d hd => hnb d (List.mem_cons_of_mem c hd))
      simp [braceScan, hc, ihr]

theorem string_data_ne_nil {s : String} (h : s ≠ "") : s.data ≠ [] := by
  intro hd
  apply h
  cases s with
  | mk data => cases hd; rfl

theorem osExpand_braced (m : String → String) (name : String)
    (hne : name ≠ "") (hnb : ∀ c ∈ name.data, c ≠ ('}' : Char)) :
    osExpand ("$\x7b" ++ name ++ "\x7d") m = m name := by
  have hdata : ("$\x7b" ++ name ++ "\x7d").data =
      ('$' : Char) :: ('{' : Char) :: (name.data ++ [('}' : Char)]) := by
    simp [String.data_append]
  have hbs := braceScan_append_close name.data hnb
  have hnn := string_data_ne_nil hne
  unfold osExpand
  rw [hdata]
  have hlen : (('$' : Char) :: ('{' : Char) :: (name.data ++ [('}' : Char)])).length
      = (name.data.length + 2) + 1 := by simp
  rw [hlen]
  show String.mk (expandAux m ((name.data.length + 2) + 1)
      (('$' : Char) :: ('{' : Char) :: (name.data ++ [('}' : Char)]))) = m name
  rw [expandAux]
  simp only [if_pos rfl, hbs, hnn, if_neg hnn]
  have hmk : String.mk name.data = name := by cases name; rfl
  rw [hmk]
  have hnil : expandAux m (name.data.length + 2) [] = [] := by rw [expandAux]
  rw [hnil, List.append_nil]
  cases m name
  rfl

/-- Fixture: a provider whose value component is non-empty even for keys it
does not find. -/
def provJunk : Provider := fun k =>
  if k = "ADDR" then ("x:${X}", true) else ("JUNK", false)

/-- C3 counterexample: with the `expand` option, a placeholder naming a key
the source does not find is replaced by the value component the source
returned alongside `found = false` — here `"JUNK"` — not by the empty
string, refuting the claim as stated. -/
theorem claim_C3_counterexample :
    lookupEnv (newLoader provJunk []) "ADDR" true = ("x:JUNK", true)
    ∧ ("x:JUNK" : String) ≠ "x:" := by
  constructor
  · rfl
  · decide

/-- C3 (amended): when `expand` is set and the key is found, the returned
value is `os.Expand` of the found value under the mapping that keeps only
the value component of a lookup in the same source (so a `${NAME}`
placeholder becomes exactly that value component, which is the empty string
for sources that return `("", false)` on a miss); without `expand` the found
value is returned verbatim. -/
theorem claim_C3_expansion (l : Loader) (key value name : String)
    (hfound : l.provider key = (value, true)) :
    lookupEnv l key true = (osExpand value (fun n => (l.provider n).1), true)
    ∧ lookupEnv l key false = (value, true)
    ∧ (name ≠ "" → (∀ c ∈ name.data, c ≠ ('}' : Char)) →
        osExpand ("$\x7b" ++ name ++ "\x7d") (fun n => (l.provider n).1) =
          (l.provider name).1) := by
  refine ⟨?_, ?_, ?_⟩
  · simp [lookupEnv, hfound]
  · simp [lookupEnv, hfound]
  · intro hne hnb
    exact osExpand_braced (fun n => (l.provider n).1) name hne hnb

/-- Fixture: the spec's expansion scenario. -/
def provW : Provider := fun k =>
  if k = "PORT" then ("8080", true)
  else if k = "ADDR" then ("localhost:${PORT}", true)
  else ("", false)

theorem claim_C3_witness :
    lookupEnv (newLoader provW []) "ADDR" true = ("localhost:8080", true)
    ∧ lookupEnv (newLoader provW []) "ADDR" false = ("localhost:${PORT}", true)
    ∧ osExpand ("$\x7b" ++ "PORT" ++ "\x7d")
        (fun n => ((newLoader provW []).provider n).1) = "8080" := by
  have h := claim_C3_expansion (newLoader provW []) "ADDR" "localhost:${PORT}" "PORT" rfl
  refine ⟨?_, h.2.1, ?_⟩
  · rw [h.1]
    rfl
  · rw [h.2.2 (by decide) (by decide)]
    rfl

theorem parseFields_append (l : Loader) (p : Path) :
    ∀ (xs ys : List FieldT) (i : Nat),
      parseFields l p i (xs ++ ys) =
        match parseFields l p i xs with
        | .error e => .error e
        | .ok v1 =>
            match parseFields l p (i + xs.length) ys with
            | .error e => .error e
            | .ok v2 => .ok (v1 ++ v2) := by
  intro xs
  induction xs with
  | nil =>
      intro ys i
      simp only [List.nil_append, parseFields_nil, List.length_nil, Nat.add_zero]
      rcases parseFields l p i ys with e | v2 <;> simp
  | cons f rest ih =>
      intro ys i
      rcases f with ⟨canSet, tag, ty⟩
      have hlen : i + 1 + rest.length = i + (rest.length + 1) := by omega
      cases canSet with
      | false =>
          rw [List.cons_append, parseFields_cons_private, parseFields_cons_private, ih, hlen]
          simp
      | true =>
          by_cases hstr : ∃ inner : List FieldT, ty = .strct inner none
          · obtain ⟨inner, rfl⟩ := hstr
            rw [List.cons_append, parseFields_cons_struct, parseFields_cons_struct, ih, hlen]
            simp only [List.length_cons]
            rcases parseFields l (p ++ [i]) 0 inner with e | nested
            · simp
            · rcases parseFields l p (i + 1) rest with e | rst
              · simp
              · rcases parseFields l p (i + (rest.length + 1)) ys with e | v2 <;> simp
          · push_neg at hstr
            rw [List.cons_append, parseFields_cons_leaf l p i tag ty _ (fun inn => hstr inn),
              parseFields_cons_leaf l p i tag ty rest (fun inn => hstr inn), ih, hlen]
            rcases tag with _ | t
            · simp
            · simp only [List.length_cons]
              split
              · rfl
              · rcases parseOptions ((goSplit t ",").tail) false false with e | ro
                · rfl
                · rcases ro with ⟨req, exp⟩
                  rcases parseFields l p (i + 1) rest with e | rst
                  · simp
                  · rcases parseFields l p (i + (rest.length + 1)) ys with e | v2 <;> simp

theorem parseFields_path_shape (l : Loader) :
    ∀ (n : Nat) (fs : List FieldT), sizeOf fs ≤ n →
      ∀ (p : Path) (i : Nat) (vars : List Variable),
        parseFields l p i fs = .ok vars →
        ∀ v ∈ vars, ∃ j s, v.path = p ++ j :: s ∧ i ≤ j := by
  intro n
  induction n with
  | zero =>
      intro fs hle p i vars hp v hv
      match fs with
      | [] =>
          rw [parseFields_nil] at hp
          simp only [Except.ok.injEq] at hp
          subst hp
          simp at hv
      | f :: rest => simp at hle
  | succ n ih =>
      intro fs hle p i vars hp v hv
      match fs with
      | [] =>
          rw [parseFields_nil] at hp
          simp only [Except.ok.injEq] at hp
          subst hp
          simp at hv
      | (canSet, tag, ty) :: rest =>
          have hrest : sizeOf rest ≤ n := by simp at hle; omega
          cases canSet with
          | false =>
              rw [parseFields_cons_private] at hp
              obtain ⟨j, s, hpath, hj⟩ := ih rest hrest p (i + 1) vars hp v hv
              exact ⟨j, s, hpath, by omega⟩
          | true =>
              by_cases hstr : ∃ inner : List FieldT, ty = .strct inner none
              · obtain ⟨inner, rfl⟩ := hstr
                have hinner : sizeOf inner ≤ n := by simp at hle; omega
                rw [parseFields_cons_struct] at hp
                rcases hn : parseFields l (p ++ [i]) 0 inner with e | nested <;> rw [hn] at hp
                · simp at hp
                · rcases hr : parseFields l p (i + 1) rest with e | rst <;> rw [hr] at hp
                  · simp at hp
                  · simp only [Except.ok.injEq] at hp
                    subst hp
                    rcases List.mem_append.mp hv with hvn | hvr
                    · obtain ⟨j1, s1, hpath, hj1⟩ :=
                        ih inner hinner (p ++ [i]) 0 nested hn v hvn
                      refine ⟨i, j1 :: s1, ?_, le_refl i⟩
                      rw [hpath, List.append_assoc]
                      rfl
                    · obtain ⟨j, s, hpath, hj⟩ := ih rest hrest p (i + 1) rst hr v hvr
                      exact ⟨j, s, hpath, by omega⟩
              · push_neg at hstr
                rw [parseFields_cons_leaf l p i tag ty rest (fun inn => hstr inn)] at hp
                rcases tag with _ | t
                · obtain ⟨j, s, hpath, hj⟩ := ih rest hrest p (i + 1) vars hp v hv
                  exact ⟨j, s, hpath, by omega⟩
                · simp only [] at hp
                  split at hp
                  · simp at hp
                  · rcases ho : parseOptions ((goSplit t ",").tail) false false with e | ro <;>
                      rw [ho] at hp
                    · simp at hp
                    · rcases ro with ⟨req, exp⟩
                      rcases hr : parseFields l p (i + 1) rest with e | rst <;> rw [hr] at hp
                      · simp at hp
                      · simp only [Except.ok.injEq] at hp
                        subst hp
                        rcases List.mem_cons.mp hv with hveq | hvr
                        · subst hveq
                          exact ⟨i, [], rfl, le_refl i⟩
                        · obtain ⟨j, s, hpath, hj⟩ := ih rest hrest p (i + 1) rst hr v hvr
                          exact ⟨j, s, hpath, by omega⟩

theorem path_ne_of_shape {p : Path} {j1 j2 : Nat} {s1 s2 : List Nat}
    (hne : j1 ≠ j2) : p ++ j1 :: s1 ≠ p ++ j2 :: s2 := by
  intro h
  have h2 := List.append_cancel_left h
  simp only [List.cons.injEq] at h2
  exact hne h2.1

theorem parseFields_paths_pairwise (l : Loader) :
    ∀ (n : Nat) (fs : List FieldT), sizeOf fs ≤ n →
      ∀ (p : Path) (i : Nat) (vars : List Variable),
        parseFields l p i fs = .ok vars →
        vars.Pairwise (fun a b => a.path ≠ b.path) := by
  intro n
  induction n with
  | zero =>
      intro fs hle p i vars hp
      match fs with
      | [] =>
          rw [parseFields_nil] at hp
          simp only [Except.ok.injEq] at hp
          subst hp
          exact List.Pairwise.nil
      | f :: rest => simp at hle
  | succ n ih =>
      intro fs hle p i vars hp
      match fs with
      | [] =>
          rw [parseFields_nil] at hp
          simp only [Except.ok.injEq] at hp
          subst hp
          exact List.Pairwise.nil
      | (canSet, tag, ty) :: rest =>
          have hrest : sizeOf rest ≤ n := by simp at hle; omega
          cases canSet with
          | false =>
              rw [parseFields_cons_private] at hp
              exact ih rest hrest p (i + 1) vars hp
          | true =>
              by_cases hstr : ∃ inner : List FieldT, ty = .strct inner none
              · obtain ⟨inner, rfl⟩ := hstr
                have hinner : sizeOf inner ≤ n := by simp at hle; omega
                rw [parseFields_cons_struct] at hp
                rcases hn : parseFields l (p ++ [i]) 0 inner with e | nested <;> rw [hn] at hp
                · simp at hp
                · rcases hr : parseFields l p (i + 1) rest with e | rst <;> rw [hr] at hp
                  · simp at hp
                  · simp only [Except.ok.injEq] at hp
                    subst hp
                    rw [List.pairwise_append]
                    refine ⟨ih inner hinner (p ++ [i]) 0 nested hn,
                            ih rest hrest p (i + 1) rst hr, ?_⟩
                    intro a ha b hb
                    obtain ⟨j1, s1, hp1, hj1⟩ :=
                      parseFields_path_shape l n inner hinner (p ++ [i]) 0 nested hn a ha
                    obtain ⟨j2, s2, hp2, hj2⟩ :=
                      parseFields_path_shape l n rest hrest p (i + 1) rst hr b hb
                    rw [hp1, hp2, List.append_assoc]
                    exact path_ne_of_shape (by omega)
              · push_neg at hstr
                rw [parseFields_cons_leaf l p i tag ty rest (fun inn => hstr inn)] at hp
                rcases tag with _ | t
                · exact ih rest hrest p (i + 1) vars hp
                · simp only [] at hp
                  split at hp
                  · simp at hp
                  · rcases ho : parseOptions ((goSplit t ",").tail) false false with e | ro <;>
                      rw [ho] at hp
                    · simp at hp
                    · rcases ro with ⟨req, exp⟩
                      rcases hr : parseFields l p (i + 1) rest with e | rst <;> rw [hr] at hp
                      · simp at hp
                      · simp only [Except.ok.injEq] at hp
                        subst hp
                        refine List.Pairwise.cons ?_ (ih rest hrest p (i + 1) rst hr)
                        intro b hb
                        obtain ⟨j2, s2, hp2, hj2⟩ :=
                          parseFields_path_shape l n rest hrest p (i + 1) rst hr b hb
                        show p ++ [i] ≠ b.path
                        rw [hp2]
                        exact path_ne_of_shape (by omega)

theorem parseOptions_ok_iff (opts : List String) :
    ∀ (r e : Bool), isOkE (parseOptions opts r e) = true ↔
      ∀ o ∈ opts, o = "required" ∨ o = "expand" := by
  induction opts with
  | nil => intro r e; simp [parseOptions, isOkE]
  | cons o rest ih =>
      intro r e
      simp only [parseOptions]
      by_cases h1 : o = "required"
      · rw [if_pos h1, ih true e]
        simp [h1]
      · by_cases h2 : o = "expand"
        · rw [if_neg h1, if_pos h2, ih r true]
          simp [h2]
        · rw [if_neg h1, if_neg h2]
          simp [isOkE, h1, h2]

theorem parseOptions_first_invalid (bad : String)
    (hb1 : bad ≠ "required") (hb2 : bad ≠ "expand") :
    ∀ (opts1 opts2 : List String) (r e : Bool),
      (∀ o ∈ opts1, o = "required" ∨ o = "expand") →
      parseOptions (opts1 ++ bad :: opts2) r e = .error (.invalidTagOption bad) := by
  intro opts1
  induction opts1 with
  | nil =>
      intro opts2 r e hv
      simp only [List.nil_append, parseOptions]
      rw [if_neg hb1, if_neg hb2]
  | cons o rest ih =>
      intro opts2 r e hv
      have hrest : ∀ x ∈ rest, x = "required" ∨ x = "expand" :=
        fun x hx => hv x (List.mem_cons_of_mem o hx)
      rcases hv o (List.mem_cons_self o rest) with h | h
      · subst h
        exact ih opts2 true e hrest
      · subst h
        exact ih opts2 r true hrest

/-- C5: a field carrying an `env` tag whose comma-separated first part is
empty makes discovery fail with `ErrEmptyTagName` as soon as that field is
reached (all earlier fields having parsed), regardless of what the remaining
comma-separated parts are and regardless of any fields after it, and the
whole call aborts with that error, the destination untouched. -/
theorem claim_C5_empty_tag_name (l : Loader) (st : Store)
    (pre post : List FieldT) (t : String) (ty : Ty) (vars : List Variable)
    (hpre : parseFields l [] 0 pre = .ok vars)
    (hlf : ∀ inner : List FieldT, ty ≠ .strct inner none)
    (hempty : (goSplit t ",").headD "" = "") :
    parseFields l [] 0 (pre ++ (true, some t, ty) :: post) = .error .emptyTagName
    ∧ loadVars l (.ptrToStruct (pre ++ (true, some t, ty) :: post) st) =
        (.ptrToStruct (pre ++ (true, some t, ty) :: post) st, some .emptyTagName) := by
  have h1 : parseFields l [] 0 (pre ++ (true, some t, ty) :: post) =
      .error .emptyTagName := by
    rw [parseFields_append, hpre]
    simp only []
    rw [parseFields_cons_tag _ _ _ _ _ _ hlf]
    rw [if_pos hempty]
  refine ⟨h1, ?_⟩
  simp only [loadVars, h1]

theorem claim_C5_witness :
    loadVars (newLoader provNone [])
        (.ptrToStruct
          ([(true, some "A", .base .int none)] ++
            (true, some ",required", .base .int none) :: [(true, some "B", .base .str none)])
          st0) =
      (.ptrToStruct
          ([(true, some "A", .base .int none)] ++
            (true, some ",required", .base .int none) :: [(true, some "B", .base .str none)])
          st0, some .emptyTagName) :=
  (claim_C5_empty_tag_name (newLoader provNone []) st0
    [(true, some "A", .base .int none)] [(true, some "B", .base .str none)]
    ",required" (.base .int none)
    [{ name := "A", required := false, expand := false, path := [0],
       ty := .base .int none }]
    rfl (fun inner h => Ty.noConfusion h) rfl).2

/-- C6: an annotation option is accepted exactly when it is the literal
`required` or the literal `expand`; the first other literal makes discovery
fail with `ErrInvalidTagOption` carrying that literal, and the whole call
aborts with that error, the destination untouched. -/
theorem claim_C6_invalid_tag_option (l : Loader) (st : Store)
    (pre post : List FieldT) (t : String) (ty : Ty) (vars : List Variable)
    (opts1 opts2 : List String) (bad : String)
    (hpre : parseFields l [] 0 pre = .ok vars)
    (hlf : ∀ inner : List FieldT, ty ≠ .strct inner none)
    (hname : (goSplit t ",").headD "" ≠ "")
    (htail : (goSplit t ",").tail = opts1 ++ bad :: opts2)
    (hv1 : ∀ o ∈ opts1, o = "required" ∨ o = "expand")
    (hb1 : bad ≠ "required") (hb2 : bad ≠ "expand") :
    (∀ (opts : List String) (r e : Bool),
        isOkE (parseOptions opts r e) = true ↔
          ∀ o ∈ opts, o = "required" ∨ o = "expand")
    ∧ parseFields l [] 0 (pre ++ (true, some t, ty) :: post) =
        .error (.invalidTagOption bad)
    ∧ loadVars l (.ptrToStruct (pre ++ (true, some t, ty) :: post) st) =
        (.ptrToStruct (pre ++ (true, some t, ty) :: post) st,
         some (.invalidTagOption bad)) := by
  have h1 : parseFields l [] 0 (pre ++ (true, some t, ty) :: post) =
      .error (.invalidTagOption bad) := by
    rw [parseFields_append, hpre]
    simp only []
    rw [parseFields_cons_tag _ _ _ _ _ _ hlf]
    rw [if_neg hname]
    rw [htail, parseOptions_first_invalid bad hb1 hb2 opts1 opts2 false false hv1]
  refine ⟨fun opts => parseOptions_ok_iff opts, h1, ?_⟩
  simp only [loadVars, h1]

theorem claim_C6_witness :
    loadVars (newLoader provNone [])
        (.ptrToStruct [(true, some "PORT,junk", .base .int none)] st0) =
      (.ptrToStruct [(true, some "PORT,junk", .base .int none)] st0,
       some (.invalidTagOption "junk")) :=
  (claim_C6_invalid_tag_option (newLoader provNone []) st0
    [] [] "PORT,junk" (.base .int none) [] [] [] "junk"
    rfl (fun inner h => Ty.noConfusion h) (by decide) rfl
    (fun o ho => absurd ho (List.not_mem_nil o)) (by decide) (by decide)).2.2

/-- C10: the annotation attached to a settable field whose type is a struct
without the unmarshaler capability is never inspected: discovery yields the
same result for any two tag values on such a field, malformed ones included,
because recursion into the nested struct happens before tag parsing. -/
theorem claim_C10_nested_tag_ignored (l : Loader) (p : Path) (i : Nat)
    (pre post inner : List FieldT) (tag1 tag2 : Option String) :
    parseFields l p i (pre ++ (true, tag1, .strct inner none) :: post) =
      parseFields l p i (pre ++ (true, tag2, .strct inner none) :: post) := by
  rw [parseFields_append, parseFields_append,
    parseFields_cons_struct, parseFields_cons_struct]

/-- C4: field discovery walks fields in declaration order and depth-first: a
settable struct-typed field without the unmarshaler capability is recursed
into, its variables spliced in place, and no emitted variable is the field
itself; a struct-typed field with the unmarshaler capability is instead a
leaf — its tag is parsed and it is emitted as a single variable, its inner
fields never visited. -/
theorem claim_C4_nested_walk (l : Loader) (p : Path) (i : Nat) (tag : Option String)
    (inner rest : List FieldT) (f : String → Except String Value) (t : String)
    (req exp : Bool) (nestedVars restVars : List Variable)
    (hn : parseFields l (p ++ [i]) 0 inner = .ok nestedVars)
    (hr : parseFields l p (i + 1) rest = .ok restVars)
    (hname : (goSplit t ",").headD "" ≠ "")
    (ho : parseOptions (goSplit t ",").tail false false = .ok (req, exp)) :
    parseFields l p i ((true, tag, .strct inner none) :: rest) =
      .ok (nestedVars ++ restVars)
    ∧ (∀ v ∈ nestedVars ++ restVars, v.path ≠ p ++ [i])
    ∧ parseFields l p i ((true, some t, .strct inner (some f)) :: rest) =
        .ok ({ name := l.pfx ++ (goSplit t ",").headD "", required := req,
               expand := exp, path := p ++ [i],
               ty := .strct inner (some f) } :: restVars) := by
  refine ⟨?_, ?_, ?_⟩
  · rw [parseFields_cons_struct, hn, hr]
  · intro v hv
    rcases List.mem_append.mp hv with hvn | hvr
    · obtain ⟨j, ss, hpath, hj⟩ :=
        parseFields_path_shape l (sizeOf inner) inner (le_refl _) (p ++ [i]) 0
          nestedVars hn v hvn
      rw [hpath]
      intro hcon
      have hlen := congrArg List.length hcon
      simp only [List.length_append, List.length_cons] at hlen
      omega
    · obtain ⟨j, ss, hpath, hj⟩ :=
        parseFields_path_shape l (sizeOf rest) rest (le_refl _) p (i + 1)
          restVars hr v hvr
      rw [hpath]
      have hsg : p ++ [i] = p ++ i :: [] := rfl
      rw [hsg]
      intro hcon
      have h2 := List.append_cancel_left hcon
      simp only [List.cons.injEq] at h2
      omega
  · rw [parseFields_cons_tag l p i t (.strct inner (some f)) rest
      (fun inn h => by cases h)]
    rw [if_neg hname]
    rw [ho, hr]

theorem claim_C4_witness :
    parseFields (newLoader provNone []) [] 0
        ((true, none, .strct [(true, some "N", .base .int none)] none) ::
          [(true, some "R", .base .str none)]) =
      .ok ([{ name := "N", required := false, expand := false, path := [0, 0],
              ty := .base .int none }] ++
           [{ name := "R", required := false, expand := false, path := [1],
              ty := .base .str none }])
    ∧ (∀ v ∈ ([{ name := "N", required := false, expand := false, path := [0, 0],
                 ty := .base .int none }] ++
               [{ name := "R", required := false, expand := false, path := [1],
                  ty := (.base .str none : Ty) }] : List Variable),
        v.path ≠ [] ++ [0])
    ∧ parseFields (newLoader provNone []) [] 0
        ((true, some "U,required",
          .strct [(true, some "N", .base .int none)] (some (fun s => .ok (.vstr s)))) ::
          [(true, some "R", .base .str none)]) =
      .ok ({ name := "U", required := true, expand := false, path := [] ++ [0],
             ty := .strct [(true, some "N", .base .int none)]
               (some (fun s => .ok (.vstr s))) } ::
           [{ name := "R", required := false, expand := false, path := [1],
              ty := .base .str none }]) :=
  claim_C4_nested_walk (newLoader provNone []) [] 0 none
    [(true, some "N", .base .int none)] [(true, some "R", .base .str none)]
    (fun s => .ok (.vstr s)) "U,required" true false
    [{ name := "N", required := false, expand := false, path := [0, 0],
       ty := .base .int none }]
    [{ name := "R", required := false, expand := false, path := [1],
       ty := .base .str none }]
    rfl rfl (by decide) rfl

theorem bindLoop_skip (l : Loader) (v : Variable)
    (hnf : (l.provider v.name).2 = false) (hnr : v.required = false) :
    ∀ (v1s v2s : List Variable) (st : Store) (ns : List String),
      bindLoop l (v1s ++ v :: v2s) st ns = bindLoop l (v1s ++ v2s) st ns := by
  intro v1s
  induction v1s with
  | nil =>
      intro v2s st ns
      simp only [List.nil_append]
      have hsnd := lookupEnv_snd l v.name v.expand
      rcases hl : lookupEnv l v.name v.expand with ⟨value, ok⟩
      rw [hl, hnf] at hsnd
      subst hsnd
      simp only [bindLoop, hl, Bool.not_false, if_true]
      simp [hnr]
  | cons w rest ih =>
      intro v2s st ns
      simp only [List.cons_append, bindLoop]
      rcases hlw : lookupEnv l w.name w.expand with ⟨value, ok⟩
      cases ok
      · simp only [Bool.not_false, if_true]
        exact ih v2s st _
      · simp only [Bool.not_true, Bool.false_eq_true, if_false]
        rcases hbw : bindVar l w value st with e | st2
        · rfl
        · exact ih v2s st2 ns

theorem bindLoop_store_frame (l : Loader) (q : Path) :
    ∀ (vars : List Variable) (st : Store) (ns : List String),
      (∀ w ∈ vars, w.path = q → (l.provider w.name).2 = false) →
      (bindLoop l vars st ns).1 q = st q := by
  intro vars
  induction vars with
  | nil =>
      intro st ns hw
      rfl
  | cons w rest ih =>
      intro st ns hw
      have hwr : ∀ x ∈ rest, x.path = q → (l.provider x.name).2 = false :=
        fun x hx => hw x (List.mem_cons_of_mem w hx)
      have hsnd := lookupEnv_snd l w.name w.expand
      rcases hl : lookupEnv l w.name w.expand with ⟨value, ok⟩
      rw [hl] at hsnd
      simp only [bindLoop, hl]
      cases hok : (l.provider w.name).2
      · rw [hok] at hsnd
        subst hsnd
        simp only [Bool.not_false, if_true]
        exact ih st _ hwr
      · rw [hok] at hsnd
        subst hsnd
        simp only [Bool.not_true, Bool.false_eq_true, if_false]
        have hne : w.path ≠ q := by
          intro hcon
          rw [hw w (List.mem_cons_self w rest) hcon] at hok
          cases hok
        rw [bindVar_eq]
        rcases hbe : bindExpr l w value with e | val
        · rfl
        · simp only []
          rw [ih (update st w.path val) ns hwr]
          simp [update, if_neg (Ne.symm hne)]

/-- C7: a discovered variable whose key the source does not report found and
that is not marked required leaves its destination field completely
untouched: the final store agrees with the initial one at the variable's
path, and the whole resolve-and-bind loop (and hence the load call) behaves
exactly as if the variable were absent — no error arises from the absence. -/
theorem claim_C7_absent_untouched (l : Loader) (fs : List FieldT) (st : Store)
    (v1s v2s : List Variable) (v : Variable)
    (hp : parseFields l [] 0 fs = .ok (v1s ++ v :: v2s))
    (hnf : (l.provider v.name).2 = false)
    (hnr : v.required = false) :
    (bindLoop l (v1s ++ v :: v2s) st []).1 v.path = st v.path
    ∧ bindLoop l (v1s ++ v :: v2s) st [] = bindLoop l (v1s ++ v2s) st []
    ∧ loadVars l (.ptrToStruct fs st) =
        (.ptrToStruct fs (bindLoop l (v1s ++ v2s) st []).1,
         (bindLoop l (v1s ++ v2s) st []).2) := by
  have hpw := parseFields_paths_pairwise l (sizeOf fs) fs (le_refl _) [] 0 _ hp
  rw [List.pairwise_append] at hpw
  have hframe : ∀ w ∈ v1s ++ v :: v2s, w.path = v.path →
      (l.provider w.name).2 = false := by
    intro w hw hpath
    rcases List.mem_append.mp hw with h1 | h2
    · exact absurd hpath (hpw.2.2 w h1 v (List.mem_cons_self v v2s))
    · rcases List.mem_cons.mp h2 with heq | h3
      · subst heq
        exact hnf
      · exact absurd hpath.symm ((List.pairwise_cons.mp hpw.2.1).1 w h3)
  refine ⟨bindLoop_store_frame l v.path _ st [] hframe,
          bindLoop_skip l v hnf hnr v1s v2s st [], ?_⟩
  simp only [loadVars, hp]
  rw [bindLoop_skip l v hnf hnr v1s v2s st []]

/-- Fixture: a provider that only finds the key `A`. -/
def provA : Provider := fun k => if k = "A" then ("7", true) else ("", false)

theorem claim_C7_witness :
    (bindLoop (newLoader provA [])
        ([{ name := "A", required := false, expand := false, path := [0],
            ty := .base .int none }] ++
         { name := "MISSING", required := false, expand := false, path := [1],
           ty := (.base .str none : Ty) } :: []) st0 []).1 [1] = st0 [1]
    ∧ bindLoop (newLoader provA [])
        ([{ name := "A", required := false, expand := false, path := [0],
            ty := .base .int none }] ++
         { name := "MISSING", required := false, expand := false, path := [1],
           ty := (.base .str none : Ty) } :: []) st0 [] =
      bindLoop (newLoader provA [])
        ([{ name := "A", required := false, expand := false, path := [0],
            ty := .base .int none }] ++ []) st0 []
    ∧ loadVars (newLoader provA [])
        (.ptrToStruct
          [(true, some "A", .base .int none), (true, some "MISSING", .base .str none)]
          st0) =
      (.ptrToStruct
          [(true, some "A", .base .int none), (true, some "MISSING", .base .str none)]
          (bindLoop (newLoader provA [])
            ([{ name := "A", required := false, expand := false, path := [0],
                ty := .base .int none }] ++ []) st0 []).1,
       (bindLoop (newLoader provA [])
          ([{ name := "A", required := false, expand := false, path := [0],
              ty := .base .int none }] ++ []) st0 []).2) :=
  claim_C7_absent_untouched (newLoader provA [])
    [(true, some "A", .base .int none), (true, some "MISSING", .base .str none)] st0
    [{ name := "A", required := false, expand := false, path := [0],
       ty := .base .int none }]
    []
    { name := "MISSING", required := false, expand := false, path := [1],
      ty := .base .str none }
    rfl rfl rfl

theorem convertAll_append_error (elem : Ty) (bad : String) (e2 : Err)
    (hbad : convert elem bad = .error e2) :
    ∀ (xs ys : List String), (∀ x ∈ xs, isOkE (convert elem x) = true) →
      convertAll elem (xs ++ bad :: ys) = .error e2 := by
  intro xs
  induction xs with
  | nil => intro ys hv; simp [convertAll, hbad]
  | cons x rest ih =>
      intro ys hv
      have hx := hv x (List.mem_cons_self x rest)
      rcases hcx : convert elem x with e | val
      · rw [hcx] at hx
        simp [isOkE] at hx
      · have hr := ih ys (fun y hy => hv y (List.mem_cons_of_mem x hy))
        simp only [List.cons_append, convertAll, hcx, List.append_eq, hr]

/-- C8: a found slice-typed variable whose type does not itself implement the
unmarshaler interface is bound by splitting the raw value on the configured
separator (no trimming), converting each piece independently by the scalar
rules of the element type and overwriting the field with the ordered
sequence; the loop aborts with the conversion error of the first failing
piece; the default separator is a space and `WithSliceSeparator` replaces
it. -/
theorem claim_C8_slice_binding (l : Loader) (v : Variable) (elem : Ty)
    (value : String) (st : Store) (rest : List Variable) (ns : List String)
    (hty : v.ty = .slice elem none)
    (hlook : l.provider v.name = (value, true))
    (hexp : v.expand = false) :
    bindVar l v value st =
      (match convertAll elem (goSplit value l.sliceSep) with
       | .ok vs => .ok (update st v.path (.vslice vs))
       | .error e => .error e)
    ∧ (∀ (xs ys : List String) (bad : String) (e2 : Err),
        goSplit value l.sliceSep = xs ++ bad :: ys →
        (∀ x ∈ xs, isOkE (convert elem x) = true) →
        convert elem bad = .error e2 →
        bindLoop l (v :: rest) st ns = (st, some e2))
    ∧ (newLoader l.provider []).sliceSep = " "
    ∧ (∀ sep : String, (newLoader l.provider [WithSliceSeparator sep]).sliceSep = sep) := by
  have h1 : bindVar l v value st =
      (match convertAll elem (goSplit value l.sliceSep) with
       | .ok vs => .ok (update st v.path (.vslice vs))
       | .error e => .error e) := by
    unfold bindVar
    rw [hty]
    simp only [Ty.isSlice, Ty.hasU, Option.isSome_none, Bool.not_false, Bool.and_true,
      if_true]
    unfold setSlice
    rfl
  refine ⟨h1, ?_, rfl, fun sep => rfl⟩
  intro xs ys bad e2 hsplit hxs hbad
  have hle : lookupEnv l v.name v.expand = (value, true) := by
    rw [hexp]
    simp [lookupEnv, hlook]
  have hbv : bindVar l v value st = .error e2 := by
    rw [h1, hsplit, convertAll_append_error elem bad e2 hbad xs ys hxs]
  simp only [bindLoop, hle, Bool.not_true, Bool.false_eq_true, if_false, hbv]

/-- Fixture: a provider holding a semicolon-separated list with a bad piece. -/
def provPorts : Provider := fun k =>
  if k = "PORTS" then ("8080;x;8082", true) else ("", false)

theorem claim_C8_witness :
    bindVar (newLoader provPorts [WithSliceSeparator ";"])
        { name := "PORTS", required := false, expand := false, path := [0],
          ty := .slice (.base .int none) none } "8080;x;8082" st0 =
      (match convertAll (.base .int none)
          (goSplit "8080;x;8082"
            (newLoader provPorts [WithSliceSeparator ";"]).sliceSep) with
       | .ok vs => .ok (update st0 [0] (.vslice vs))
       | .error e => .error e)
    ∧ (∀ (xs ys : List String) (bad : String) (e2 : Err),
        goSplit "8080;x;8082"
            (newLoader provPorts [WithSliceSeparator ";"]).sliceSep =
          xs ++ bad :: ys →
        (∀ x ∈ xs, isOkE (convert (.base .int none) x) = true) →
        convert (.base .int none) bad = .error e2 →
        bindLoop (newLoader provPorts [WithSliceSeparator ";"])
            ({ name := "PORTS", required := false, expand := false, path := [0],
               ty := (.slice (.base .int none) none : Ty) } :: []) st0 [] =
          (st0, some e2))
    ∧ (newLoader (newLoader provPorts [WithSliceSeparator ";"]).provider []).sliceSep = " "
    ∧ (∀ sep : String,
        (newLoader (newLoader provPorts [WithSliceSeparator ";"]).provider
          [WithSliceSeparator sep]).sliceSep = sep) :=
  claim_C8_slice_binding (newLoader provPorts [WithSliceSeparator ";"])
    { name := "PORTS", required := false, expand := false, path := [0],
      ty := .slice (.base .int none) none }
    (.base .int none) "8080;x;8082" st0 [] [] rfl rfl rfl

end EnvSpec
